import Mathlib

/-!
Verification of the micarray real-time acoustic processing core.

Shallow embedding of the C sources (src/i2s.c, src/libmicarray.c,
src/localization.c, src/noise_reduction.c, src/audio_output.c) as Lean
definitions, followed by theorems settling the frozen claims about the
specification.

Modelling conventions:
* 16-bit samples are modelled as `ℤ` (the C code never overflows them on
  the paths proved here; where a cast can wrap, the wrap is modelled
  explicitly, see `i16wrap`).
* `float` arithmetic is modelled as exact real arithmetic over `ℝ`.
* Machine-size counters (`size_t`, `int`) are modelled as `ℕ` / `ℤ`.
* The FFT library (fftw, external to the repository) is a parameter of
  the definitions that call it; concrete instances for tiny transform
  sizes are supplied where a closed evaluation is needed.
* C functions that can only fail on NULL pointers are modelled as total
  functions returning their `int` status code (always 0 = success here),
  since pointer validity is outside the embedding.
-/

namespace Micarray

/-! ## Capture ring buffer (src/i2s.c)

The i2s context keeps a ring of `ring_buffer_size` 16-bit samples with
`write_pos`, `read_pos` and `available_samples` counters (struct
i2s_context, i2s.c lines 20-24). The buffer array is modelled as a total
function `ℕ → ℤ`; only indices below `cap` are ever read or written. -/

structure RingBuffer where
  cap : ℕ
  buf : ℕ → ℤ
  writePos : ℕ
  readPos : ℕ
  avail : ℕ

/-- One iteration of the producer loop body (i2s.c lines 57-59):
store the sample at `write_pos`, advance `write_pos` modulo the
capacity, increment `available_samples`. -/
def ringWrite (s : RingBuffer) (x : ℤ) : RingBuffer :=
  { s with
    buf := fun k => if k = s.writePos then x else s.buf k
    writePos := (s.writePos + 1) % s.cap
    avail := s.avail + 1 }

/-- The producer loop of `i2s_read_thread` (i2s.c lines 56-60):
`for (i = 0; i < samples_read && available < size; i++) …`.  The loop
consumes input samples in order and stops as soon as the buffer is
full, dropping the rest of the chunk. -/
def pushLoop : RingBuffer → List ℤ → RingBuffer
  | s, [] => s
  | s, x :: xs => if s.avail < s.cap then pushLoop (ringWrite s x) xs else s

/-- The state change of one consumer iteration (i2s.c lines 206-207):
advance `read_pos` modulo the capacity, decrement `available_samples`. -/
def popStep (s : RingBuffer) : RingBuffer :=
  { s with readPos := (s.readPos + 1) % s.cap, avail := s.avail - 1 }

/-- The consumer loop body of `i2s_read_samples` (i2s.c lines 204-208),
iterated `n` times: read at `read_pos`, then `popStep`. -/
def popLoop : RingBuffer → ℕ → List ℤ × RingBuffer
  | s, 0 => ([], s)
  | s, n + 1 =>
    let x := s.buf s.readPos
    let r := popLoop (popStep s) n
    (x :: r.1, r.2)

/-- `i2s_read_samples` (i2s.c lines 195-213): reads
`samples_to_read = min(samples, available_samples)` samples and returns
that count.  Result: (samples read, new state, return value). -/
def i2sReadSamples (s : RingBuffer) (n : ℕ) : List ℤ × RingBuffer × ℤ :=
  let k := min n s.avail
  let r := popLoop s k
  (r.1, r.2, (k : ℤ))

/-- Ring-buffer state produced by `i2s_init` + `i2s_start`
(i2s.c lines 95-96 and 146-148): capacity `buffer_size * 4`, zeroed
storage (calloc), all counters zero. -/
def i2sInitRing (B : ℕ) : RingBuffer :=
  { cap := 4 * B, buf := fun _ => 0, writePos := 0, readPos := 0, avail := 0 }

/-- An operation on the capture ring buffer: a producer push of a chunk
of samples, or a consumer pop of a requested count. -/
inductive RingOp where
  | push (xs : List ℤ)
  | pop (n : ℕ)

/-- Apply one ring-buffer operation to a state. -/
def applyOp (s : RingBuffer) : RingOp → RingBuffer
  | RingOp.push xs => pushLoop s xs
  | RingOp.pop n => (i2sReadSamples s n).2.1

/-- Well-formedness of a ring-buffer state: positive capacity, the fill
level within capacity, the read position in range, and the write
position determined by read position plus fill level (the ring
invariant). -/
def ringWf (s : RingBuffer) : Prop :=
  0 < s.cap ∧ s.avail ≤ s.cap ∧ s.readPos < s.cap ∧
    s.writePos = (s.readPos + s.avail) % s.cap

/-- Abstraction function: the queue of buffered samples, oldest first,
starting at `read_pos`. -/
def queueOf (s : RingBuffer) : List ℤ :=
  (List.range s.avail).map fun i => s.buf ((s.readPos + i) % s.cap)

/-! ## Mono downmix (src/libmicarray.c, processing_thread_func lines 91-97)

The driver zeroes `processed_buffer`, then for each channel `c` and each
index `j` executes
`int32_t sum = processed_buffer[j] + mic_buffers[c][j];`
`processed_buffer[j] = (int16_t)(sum / num_microphones);`
i.e. it repeatedly adds one channel and divides by `M` again, with C
truncating (toward-zero) integer division and an int16 cast.  The j-loop
is pointwise, so the per-index value is a left fold over channels. -/

/-- Wrap an integer into int16 range the way a C `(int16_t)` cast of an
in-range-or-not `int32_t` behaves on two's-complement targets. -/
def i16wrap (z : ℤ) : ℤ := (z + 32768) % 65536 - 32768

/-- One channel step of the driver downmix (libmicarray.c lines 94-95):
`(int16_t)((p + x) / M)` with C truncating division. -/
def downmixStep (M : ℕ) (p x : ℤ) : ℤ := i16wrap (Int.tdiv (p + x) (M : ℤ))

/-- The value of `processed_buffer[j]` after the downmix loops of
`processing_thread_func` (libmicarray.c lines 91-97): start from the
memset 0, fold `downmixStep` over the channels in order. -/
def downmix (M : ℕ) (lanes : ℕ → ℕ → ℤ) (j : ℕ) : ℤ :=
  (List.range M).foldl (fun p c => downmixStep M p (lanes c j)) 0

/-! ## Localization (src/localization.c)

Float arithmetic is modelled over `ℝ`.  Per-channel sample buffers are
total functions `ℕ → ℤ`; `localization_process` only reads indices below
`samples`. -/

/-- Conversion of a 16-bit sample to float, `x / 32768.0f`
(localization.c lines 31-32, noise_reduction.c line 136). -/
noncomputable def sampleToFloat (x : ℤ) : ℝ := (x : ℝ) / 32768

/-- C `(int)` cast of a float: truncation toward zero. -/
noncomputable def truncR (x : ℝ) : ℤ := if 0 ≤ x then ⌊x⌋ else ⌈x⌉

/-- A 3D microphone position (microphone_position_t), as the tuple
`(x, y, z)`. -/
abbrev MicPos : Type := ℝ × ℝ × ℝ

/-- A localization result (sound_location_t), as the tuple
`(x, y, z, confidence)`. -/
abbrev SoundLocation : Type := ℝ × ℝ × ℝ × ℝ

/-- The `confidence` field of a sound_location_t. -/
noncomputable def locConfidence (l : SoundLocation) : ℝ := l.2.2.2

/-- `cross_correlate` (localization.c lines 22-42): normalized cross
correlation of two signals at an integer `delay`.  The C loop runs
`i ∈ [0, len - abs(delay))`; on that range the index guard at line 30 is
always true, so the sums below are exactly the C accumulations.  (For
`|delay| > len` the C `size_t` subtraction at line 26 underflows; the
model takes the loop as empty, and no claim depends on that regime.) -/
noncomputable def crossCorrelate (sig1 sig2 : ℕ → ℤ) (len : ℕ) (delay : ℤ) : ℝ :=
  let n := ((len : ℤ) - |delay|).toNat
  let idx1 : ℕ → ℕ := fun i => if 0 ≤ delay then i else i + delay.natAbs
  let idx2 : ℕ → ℕ := fun i => if 0 ≤ delay then i + delay.natAbs else i
  let corr := ∑ i ∈ Finset.range n,
    sampleToFloat (sig1 (idx1 i)) * sampleToFloat (sig2 (idx2 i))
  let norm1 := ∑ i ∈ Finset.range n,
    sampleToFloat (sig1 (idx1 i)) * sampleToFloat (sig1 (idx1 i))
  let norm2 := ∑ i ∈ Finset.range n,
    sampleToFloat (sig2 (idx2 i)) * sampleToFloat (sig2 (idx2 i))
  let denominator := Real.sqrt (norm1 * norm2)
  if denominator > 0 then corr / denominator else 0

/-- The list of delays scanned by the loops at localization.c lines
48 and 223: `-max_delay, …, max_delay`, empty when `max_delay < 0`. -/
def delayRange (D : ℤ) : List ℤ :=
  (List.range (2 * D.toNat + 1)).map fun k => (k : ℤ) - D

/-- `estimate_delay` (localization.c lines 44-58): scan the delay range,
keeping the first delay achieving the maximal correlation
(`best_delay` starts at 0, `max_correlation` at -1, strict `>` update). -/
noncomputable def estimateDelay (ref sig : ℕ → ℤ) (len : ℕ) (D : ℤ) : ℝ :=
  ((delayRange D).foldl
    (fun acc d =>
      let c := crossCorrelate ref sig len d
      if c > acc.2 then ((d : ℝ), c) else acc)
    ((0 : ℝ), (-1 : ℝ))).1

/-- The second scan at localization.c lines 222-228: the maximal
correlation over the delay range, starting from -1. -/
noncomputable def maxCorrelation (ref sig : ℕ → ℤ) (len : ℕ) (D : ℤ) : ℝ :=
  (delayRange D).foldl
    (fun m d =>
      let c := crossCorrelate ref sig len d
      if c > m then c else m)
    (-1 : ℝ)

/-- `max_delay` (localization.c lines 210-211):
`(int)(mic_spacing * 2.0f / speed_of_sound * sample_rate)` capped at
`MAX_DELAY_SAMPLES = 1000`.  `spacing` and `c` are the `mic_spacing` and
`speed_of_sound` configuration fields, `rate` is `sample_rate`. -/
noncomputable def maxDelayOf (spacing c : ℝ) (rate : ℕ) : ℤ :=
  min (truncR (spacing * 2 / c * (rate : ℝ))) 1000

/-- `delay_estimates[i]` after the loop at localization.c lines 215-231
(in samples, before the division by the sample rate), given the
precomputed `max_delay` bound `D`. -/
noncomputable def delayEstimates (data : ℕ → ℕ → ℤ) (samples : ℕ) (D : ℤ)
    (i : ℕ) : ℝ :=
  if i = 0 then 0 else estimateDelay (data 0) (data i) samples D

/-- `confidence_values[i]` after the loop at localization.c lines
215-231: 1 for the reference microphone, otherwise the maximal
normalized correlation over the delay range. -/
noncomputable def confidenceValues (data : ℕ → ℕ → ℤ) (samples : ℕ) (D : ℤ)
    (i : ℕ) : ℝ :=
  if i = 0 then 1 else maxCorrelation (data 0) (data i) samples D

/-- `avg_confidence` (localization.c lines 233-237): mean of the
per-microphone confidence values, `M` the microphone count. -/
noncomputable def avgConfidence (M : ℕ) (data : ℕ → ℕ → ℤ) (samples : ℕ)
    (D : ℤ) : ℝ :=
  (∑ i ∈ Finset.range M, confidenceValues data samples D i) / (M : ℝ)

/-- The augmented trilateration matrix built at localization.c lines
64-78: row `e` comes from the microphone pair `(0, e+1)`, `c` is the
speed of sound. -/
noncomputable def triMatrix (pos : ℕ → MicPos) (c : ℝ) (delays : ℕ → ℝ) :
    Fin 3 → Fin 4 → ℝ :=
  fun e k =>
    let i := (e : ℕ) + 1
    let dx := (pos i).1 - (pos 0).1
    let dy := (pos i).2.1 - (pos 0).2.1
    let dz := (pos i).2.2 - (pos 0).2.2
    let dd := delays i * c
    if k = 0 then 2 * dx
    else if k = 1 then 2 * dy
    else if k = 2 then 2 * dz
    else dd * dd - (dx * dx + dy * dy + dz * dz)

/-- One iteration of the elimination loop of `trilaterate_3d`
(localization.c lines 88-118): partial pivot search (first row `j ≥ i`
maximizing `|A[j][i]|`, strict `>` update, lines 89-94), row swap
(lines 96-102), degeneracy check `|A[i][i]| < 1e-10` after the swap
(line 104, `none` = the early return at lines 104-110), then
elimination below the pivot (lines 112-117; the factor is read from the
original row `j`, row `i` is unchanged, so the updates are pointwise). -/
noncomputable def gaussStep (A : Fin 3 → Fin 4 → ℝ) (i : Fin 3) :
    Option (Fin 3 → Fin 4 → ℝ) :=
  let p := ((List.finRange 3).filter fun j => i < j).foldl
    (fun m j => if |A j i.castSucc| > |A m i.castSucc| then j else m) i
  let B := fun r => if r = i then A p else if r = p then A i else A r
  if |B i i.castSucc| < 1e-10 then none
  else some (fun j k =>
    if i < j ∧ (i : ℕ) ≤ (k : ℕ) then
      B j k - B j i.castSucc / B i i.castSucc * B i k
    else B j k)

/-- The three elimination iterations of `trilaterate_3d`. -/
noncomputable def gaussElim (A : Fin 3 → Fin 4 → ℝ) :
    Option (Fin 3 → Fin 4 → ℝ) :=
  (gaussStep A 0).bind fun A1 => (gaussStep A1 1).bind fun A2 => gaussStep A2 2

/-- `trilaterate_3d` (localization.c lines 60-138).  The equation loop
produces `min(M-1, 3)` equations, so fewer than 3 equations means
`M - 1 < 3`; both that case and a degenerate pivot return the origin
with confidence 0 (lines 80-86 and 104-110).  On success the location
is the back-substituted solution (lines 120-127) and the confidence is
the average of the `confidence_values` (lines 129-137). -/
noncomputable def trilaterate3d (M : ℕ) (pos : ℕ → MicPos) (c : ℝ)
    (conf : ℕ → ℝ) (delays : ℕ → ℝ) : SoundLocation :=
  if M - 1 < 3 then (0, 0, 0, 0)
  else
    (gaussElim (triMatrix pos c delays)).elim (0, 0, 0, 0) fun U =>
      let x2 := U 2 3 / U 2 2
      let x1 := (U 1 3 - U 1 2 * x2) / U 1 1
      let x0 := (U 0 3 - U 0 1 * x1 - U 0 2 * x2) / U 0 0
      (x0, x1, x2, (∑ i ∈ Finset.range M, conf i) / (M : ℝ))

/-- `localization_process` (localization.c lines 197-254), with the
configuration fields passed explicitly: `M` microphones at positions
`pos`, ring parameters `spacing`/`c`/`rate`, correlation window
`window`, confidence gate `minConf`.  Returns the status code (always
`MICARRAY_SUCCESS = 0`; NULL-pointer failures are outside the model)
and the `sound_location_t` written through the out pointer. -/
noncomputable def localizationProcess (M : ℕ) (spacing : ℝ) (rate : ℕ)
    (c : ℝ) (window : ℕ) (minConf : ℝ) (pos : ℕ → MicPos)
    (data : ℕ → ℕ → ℤ) (samples : ℕ) : ℤ × SoundLocation :=
  if samples < window then (0, (0, 0, 0, 0))
  else
    let D := maxDelayOf spacing c rate
    let avg := avgConfidence M data samples D
    if avg < minConf then (0, (0, 0, 0, avg))
    else
      (0, trilaterate3d M pos c (confidenceValues data samples D)
        (fun i => delayEstimates data samples D i / (rate : ℝ)))

/-! ## Stereo output (src/audio_output.c)

`apply_stereo_panning` and the volume stage of `audio_output_write_stereo`
are pointwise in the sample index, so they are modelled per sample. -/

/-- C `atan2f(y, x)`, with `atan2(0,0) = 0`: the argument of the complex
number `x + iy`. -/
noncomputable def atan2R (y x : ℝ) : ℝ := Complex.arg ⟨x, y⟩

/-- `fmaxf(lo, fminf(hi, x))` as used for the pan and attenuation
clamps (audio_output.c lines 29 and 32). -/
noncomputable def clampR (lo hi x : ℝ) : ℝ := max lo (min hi x)

/-- One sample of `apply_stereo_panning` (audio_output.c lines 23-44):
pan from the source angle, distance attenuation, gains scaled by the
location confidence — volume is NOT part of these gains — then
`left_out[i] = (int16_t)(mono_data[i] * left_gain)` and the symmetric
right sample.  The C cast truncates toward zero; there is no clamping.
(An out-of-range float-to-int cast is undefined behaviour in C; the
model keeps plain truncation.) -/
noncomputable def applyStereoPanning (loc : SoundLocation) (m : ℤ) : ℤ × ℤ :=
  let angle := atan2R loc.2.1 loc.1
  let distance := Real.sqrt (loc.1 * loc.1 + loc.2.1 * loc.2.1)
  let pan := clampR (-1) 1 (angle / Real.pi)
  let attn := clampR 0.1 1 (1 / (1 + distance * 0.1))
  let leftGain := ((1 - pan) * 0.5 + 0.5) * (attn * locConfidence loc)
  let rightGain := ((1 + pan) * 0.5 + 0.5) * (attn * locConfidence loc)
  (truncR ((m : ℝ) * leftGain), truncR ((m : ℝ) * rightGain))

/-- The volume stage of `audio_output_write_stereo` (audio_output.c
lines 263-266): `(int16_t)(channel_sample * volume)`, applied to the
int16 samples produced by the panning stage. -/
noncomputable def writeStereoSample (volume : ℝ) (x : ℤ) : ℤ :=
  truncR ((x : ℝ) * volume)

/-- One sample of `audio_output_write_localized` (audio_output.c lines
286-308): panning then the volume stage; the pair is the (L, R) entry
written into the interleaved output buffer. -/
noncomputable def writeLocalized (volume : ℝ) (loc : SoundLocation) (m : ℤ) :
    ℤ × ℤ :=
  let p := applyStereoPanning loc m
  (writeStereoSample volume p.1, writeStereoSample volume p.2)

/-- Modelled from the spec (section 4.4): the claimed left gain
`gain_L = ((1 − pan)/2 + 0.5) · attn · confidence · volume`, volume
included.  Used only to compare the spec formula with the code. -/
noncomputable def specGainL (loc : SoundLocation) (volume : ℝ) : ℝ :=
  let angle := atan2R loc.2.1 loc.1
  let distance := Real.sqrt (loc.1 * loc.1 + loc.2.1 * loc.2.1)
  let pan := clampR (-1) 1 (angle / Real.pi)
  let attn := clampR 0.1 1 (1 / (1 + distance * 0.1))
  ((1 - pan) / 2 + 0.5) * attn * locConfidence loc * volume

/-- Modelled from the spec (section 4.4): `clip_i16`, saturation to the
int16 range with truncation of the fraction.  Used only to compare the
spec formula with the code. -/
noncomputable def specClipI16 (x : ℝ) : ℤ := max (-32768) (min 32767 (truncR x))

/-! ## Noise reduction (src/noise_reduction.c)

The FFT (fftw, external to the repository) enters as a pair of function
parameters: `fft` for the unnormalized r2c forward plan and `ifft` for
the unnormalized c2r inverse plan executed at lines 146 and 152.  The
configuration fields (noise_reduction_config_t) are passed explicitly:
`thr` = `noise_threshold`, `F` = `frame_size`, `overlap`, `alpha`,
`beta`, `alg` = `algorithm`.

The mutable context fields the claims touch (struct
noise_reduction_context, noise_reduction.c lines 10-29) form the state
tuple `NRState = (input_buffer, overlap_buffer, noise_spectrum,
buffer_pos, noise_profile_ready)`.  Buffers are total functions; only
indices below `frame_size` (resp. `overlap`, `frame_size/2 + 1`) are
meaningful. -/

/-- The mutable noise-reduction state, as the tuple
`(input_buffer, overlap_buffer, noise_spectrum, buffer_pos,
noise_profile_ready)`. -/
abbrev NRState : Type := (ℕ → ℝ) × (ℕ → ℝ) × (ℕ → ℝ) × ℕ × Bool

/-- The `noise_spectrum` field of the state. -/
noncomputable def nrNoiseSpectrum (st : NRState) : ℕ → ℝ := st.2.2.1

/-- The `noise_profile_ready` field of the state. -/
def nrReady (st : NRState) : Bool := st.2.2.2.2

/-- The Hann window coefficient `0.5 * (1 - cos(2π i / (size - 1)))`
(apply_hanning_window, noise_reduction.c lines 31-36). -/
noncomputable def hannW (F : ℕ) (i : ℕ) : ℝ :=
  0.5 * (1 - Real.cos (2 * Real.pi * (i : ℝ) / ((F : ℝ) - 1)))

/-- The per-bin gain of `spectral_subtraction` (noise_reduction.c lines
46-57): SNR test with `ε = 1e-10` against `thr = noise_threshold`,
over-subtraction by `alpha` in the high-SNR branch, noise floor `beta`
otherwise, then clamp to `[beta, 1]` via `fmaxf`/`fminf`. -/
noncomputable def ssGain (thr alpha beta : ℝ) (noise mag : ℝ) : ℝ :=
  let snr := mag / (noise + 1e-10)
  let g := if snr > thr then 1 - alpha * (noise / mag) else beta
  min (max g beta) 1

/-- One bin of `spectral_subtraction` (noise_reduction.c lines 39-64):
compute magnitude and phase, scale the magnitude by the gain when the
noise profile is ready, and rebuild the bin in polar form. -/
noncomputable def ssBin (thr alpha beta : ℝ) (ready : Bool) (noise : ℝ)
    (z : ℂ) : ℂ :=
  let mag := Real.sqrt (z.re * z.re + z.im * z.im)
  let phase := atan2R z.im z.re
  let mag' := if ready then mag * ssGain thr alpha beta noise mag else mag
  ⟨mag' * Real.cos phase, mag' * Real.sin phase⟩

/-- Clamp to `[-1, 1]`, scale by 32767 and truncate: the output sample
conversion at noise_reduction.c lines 166-168. -/
noncomputable def i16output (x : ℝ) : ℤ := truncR (max (-1) (min 1 x) * 32767)

/-- The full-frame processing block of `noise_reduction_process`
(noise_reduction.c lines 143-176): window, forward FFT, spectral
subtraction on bins `0 … F/2` when the algorithm is
`"spectral_subtraction"` (line 148; other bins and other algorithms
leave the spectrum untouched), inverse FFT, divide by `F`, window
again, overlap-add; returns the processed frame values (from which the
caller emits the first hop) and the state with the new overlap tail,
the accumulator shifted left by the hop and `buffer_pos` decremented. -/
noncomputable def processFrame (fft : (ℕ → ℝ) → ℕ → ℂ)
    (ifft : (ℕ → ℂ) → ℕ → ℝ) (thr alpha beta : ℝ) (F overlap : ℕ)
    (alg : String) (st : NRState) : (ℕ → ℝ) × NRState :=
  let hop := F - overlap
  let windowed := fun i => st.1 i * hannW F i
  let X := fft windowed
  let X' := if alg = "spectral_subtraction" then
      (fun k => if k ≤ F / 2 then
        ssBin thr alpha beta st.2.2.2.2 (st.2.2.1 k) (X k)
      else X k)
    else X
  let t := fun i => ifft X' i / (F : ℝ) * hannW F i
  let t' := fun i => if i < overlap then t i + st.2.1 i else t i
  (t',
    (fun i => if i < F - hop then st.1 (hop + i) else st.1 i,
      fun i => t' (hop + i),
      st.2.2.1, st.2.2.2.1 - hop, st.2.2.2.2))

/-- The `while (processed < samples)` loop of `noise_reduction_process`
(noise_reduction.c lines 132-178), with explicit fuel.  Each iteration
copies `to_copy = min(samples - processed, F - buffer_pos)` input
samples into the accumulator and, when the accumulator is full, runs
`processFrame` and emits `min(hop, samples - frame_start)` samples at
`frame_start = processed - to_copy`.  Emitted output positions are
`some`; positions the C function never writes stay as given.  Fuel
`samples + 1` bounds the iteration count whenever `overlap <
frame_size` (the same condition under which the C loop terminates). -/
noncomputable def nrLoop (fft : (ℕ → ℝ) → ℕ → ℂ) (ifft : (ℕ → ℂ) → ℕ → ℝ)
    (thr alpha beta : ℝ) (F overlap : ℕ) (alg : String) (input : ℕ → ℤ)
    (samples : ℕ) :
    ℕ → ℕ → NRState → (ℕ → Option ℤ) → (ℕ → Option ℤ) × NRState
  | 0, _, st, out => (out, st)
  | fuel + 1, processed, st, out =>
    if processed < samples then
      let pos := st.2.2.2.1
      let hop := F - overlap
      let toCopy := min (samples - processed) (F - pos)
      let st1 : NRState :=
        (fun j => if pos ≤ j ∧ j < pos + toCopy then
            sampleToFloat (input (processed + (j - pos)))
          else st.1 j,
          st.2.1, st.2.2.1, pos + toCopy, st.2.2.2.2)
      let processed' := processed + toCopy
      if F ≤ pos + toCopy then
        let r := processFrame fft ifft thr alpha beta F overlap alg st1
        let start := processed' - toCopy
        let nOut := min hop (samples - start)
        let out' := fun j =>
          if start ≤ j ∧ j < start + nOut then some (i16output (r.1 (j - start)))
          else out j
        nrLoop fft ifft thr alpha beta F overlap alg input samples fuel
          processed' r.2 out'
      else
        nrLoop fft ifft thr alpha beta F overlap alg input samples fuel
          processed' st1 out
    else (out, st)

/-- `noise_reduction_process` (noise_reduction.c lines 124-181): run the
loop from `processed = 0` on an output buffer with no positions written
yet; the status code is always `MICARRAY_SUCCESS = 0` (NULL-pointer
failures are outside the model). -/
noncomputable def noiseReductionProcess (fft : (ℕ → ℝ) → ℕ → ℂ)
    (ifft : (ℕ → ℂ) → ℕ → ℝ) (thr alpha beta : ℝ) (F overlap : ℕ)
    (alg : String) (input : ℕ → ℤ) (samples : ℕ) (st : NRState) :
    (ℕ → Option ℤ) × NRState × ℤ :=
  let r := nrLoop fft ifft thr alpha beta F overlap alg input samples
    (samples + 1) 0 st (fun _ => none)
  (r.1, r.2, 0)

/-- The accumulation loop of `noise_reduction_update_noise_profile`
(noise_reduction.c lines 190-209), with explicit fuel: while
`processed + F ≤ samples`, window a frame, FFT it, add the bin
magnitudes into the spectrum accumulator, and advance by `F/2`.
Returns the accumulated spectrum and the frame count.  Fuel
`samples + 1` bounds the iteration count whenever `F ≥ 2` (for
`F ≤ 1` the C loop itself never advances). -/
noncomputable def updateProfileLoop (fft : (ℕ → ℝ) → ℕ → ℂ) (F : ℕ)
    (noise : ℕ → ℤ) (samples : ℕ) :
    ℕ → ℕ → (ℕ → ℝ) → ℕ → (ℕ → ℝ) × ℕ
  | 0, _, spec, n => (spec, n)
  | fuel + 1, processed, spec, n =>
    if processed + F ≤ samples then
      let v := fun i => sampleToFloat (noise (processed + i)) * hannW F i
      let X := fft v
      let spec' := fun k =>
        if k ≤ F / 2 then
          spec k + Real.sqrt ((X k).re * (X k).re + (X k).im * (X k).im)
        else spec k
      updateProfileLoop fft F noise samples fuel (processed + F / 2) spec'
        (n + 1)
    else (spec, n)

/-- `noise_reduction_update_noise_profile` (noise_reduction.c lines
183-219): zero the stored spectrum (memset over the `F/2 + 1` bins),
run the accumulation loop, and only when at least one frame was
accumulated divide by the frame count and set `noise_profile_ready`.
Returns the new state and the status code (always 0). -/
noncomputable def noiseReductionUpdateNoiseProfile (fft : (ℕ → ℝ) → ℕ → ℂ)
    (F : ℕ) (noise : ℕ → ℤ) (samples : ℕ) (st : NRState) : NRState × ℤ :=
  let zeroed : ℕ → ℝ := fun k => if k ≤ F / 2 then 0 else st.2.2.1 k
  let r := updateProfileLoop fft F noise samples (samples + 1) 0 zeroed 0
  if 0 < r.2 then
    ((st.1, st.2.1, fun k => if k ≤ F / 2 then r.1 k / (r.2 : ℝ) else r.1 k,
      st.2.2.2.1, true), 0)
  else ((st.1, st.2.1, r.1, st.2.2.2.1, st.2.2.2.2), 0)

/-- The exact unnormalized r2c DFT of size 2 (both bins are real:
`X0 = v0 + v1`, `X1 = v0 - v1`), a concrete instance of the fftw
forward-plan contract at `frame_size = 2`. -/
noncomputable def dft2 (v : ℕ → ℝ) : ℕ → ℂ :=
  fun k => if k = 0 then ⟨v 0 + v 1, 0⟩ else ⟨v 0 - v 1, 0⟩

/-- The exact unnormalized c2r inverse DFT of size 2
(`y0 = X0 + X1`, `y1 = X0 - X1`, real parts), a concrete instance of
the fftw inverse-plan contract at `frame_size = 2`. -/
noncomputable def idft2 (V : ℕ → ℂ) : ℕ → ℝ :=
  fun n => if n = 0 then (V 0).re + (V 1).re else (V 0).re - (V 1).re
/-! ## Ring buffer lemmas -/

theorem pushLoop_cap (xs : List ℤ) (s : RingBuffer) :
    (pushLoop s xs).cap = s.cap := by
  induction xs generalizing s with
  | nil => rfl
  | cons x xs ih =>
    unfold pushLoop
    by_cases h : s.avail < s.cap
    · rw [if_pos h, ih]; rfl
    · rw [if_neg h]

theorem pushLoop_avail (xs : List ℤ) (s : RingBuffer)
    (h : s.avail ≤ s.cap) :
    (pushLoop s xs).avail = min (s.avail + xs.length) s.cap := by
  induction xs generalizing s with
  | nil => simpa [pushLoop] using (Nat.min_eq_left h).symm
  | cons x xs ih =>
    unfold pushLoop
    by_cases hlt : s.avail < s.cap
    · rw [if_pos hlt, ih (ringWrite s x) hlt]
      simp only [ringWrite, List.length_cons]
      omega
    · rw [if_neg hlt]
      simp only [List.length_cons]
      omega

theorem popLoop_avail (k : ℕ) (s : RingBuffer) :
    (popLoop s k).2.avail = s.avail - k ∧ (popLoop s k).2.cap = s.cap := by
  induction k generalizing s with
  | zero => exact ⟨rfl, rfl⟩
  | succ k ih =>
    unfold popLoop
    have h := ih (popStep s)
    refine ⟨?_, h.2⟩
    rw [h.1]
    simp only [popStep]
    omega

theorem queueOf_length (s : RingBuffer) : (queueOf s).length = s.avail := by
  simp [queueOf]

/-- Writing one sample into a non-full well-formed ring appends it to
the abstract queue. -/
theorem queueOf_ringWrite (s : RingBuffer) (x : ℤ) (h : ringWf s)
    (hlt : s.avail < s.cap) :
    ringWf (ringWrite s x) ∧ queueOf (ringWrite s x) = queueOf s ++ [x] := by
  obtain ⟨hcap, hav, hrp, hwp⟩ := h
  constructor
  · refine ⟨hcap, hlt, hrp, ?_⟩
    simp only [ringWrite, hwp]
    rw [Nat.mod_add_mod, Nat.add_assoc]
  · simp only [queueOf, ringWrite, List.range_succ, List.map_append,
      List.map_cons, List.map_nil]
    congr 1
    · apply List.map_congr_left
      intro i hi
      rw [List.mem_range] at hi
      have hne : (s.readPos + i) % s.cap ≠ s.writePos := by
        rw [hwp]
        intro hEq
        have h2 : i % s.cap = s.avail % s.cap :=
          Nat.ModEq.add_left_cancel' s.readPos hEq
        rw [Nat.mod_eq_of_lt (lt_trans hi hlt), Nat.mod_eq_of_lt hlt] at h2
        omega
      rw [if_neg hne]
    · rw [hwp.symm, if_pos rfl]

/-- The producer loop appends the accepted part of the chunk (the first
`capacity - available` samples) to the abstract queue and preserves
well-formedness. -/
theorem queueOf_pushLoop (xs : List ℤ) (s : RingBuffer) (h : ringWf s) :
    ringWf (pushLoop s xs) ∧
      queueOf (pushLoop s xs) = queueOf s ++ xs.take (s.cap - s.avail) := by
  induction xs generalizing s with
  | nil => simpa [pushLoop] using h
  | cons x xs ih =>
    unfold pushLoop
    by_cases hlt : s.avail < s.cap
    · rw [if_pos hlt]
      obtain ⟨hw, hq⟩ := queueOf_ringWrite s x h hlt
      obtain ⟨ih1, ih2⟩ := ih (ringWrite s x) hw
      refine ⟨ih1, ?_⟩
      rw [ih2, hq]
      have hcap : (ringWrite s x).cap = s.cap := rfl
      have havl : (ringWrite s x).avail = s.avail + 1 := rfl
      rw [hcap, havl]
      have hsub : s.cap - s.avail = (s.cap - (s.avail + 1)) + 1 := by omega
      rw [hsub, List.take_succ_cons, List.append_assoc, List.singleton_append]
    · rw [if_neg hlt]
      have h0 : s.cap - s.avail = 0 := by omega
      rw [h0, List.take_zero, List.append_nil]
      exact ⟨h, rfl⟩

/-- One consumer step on a well-formed non-empty ring preserves
well-formedness. -/
theorem ringWf_popStep (s : RingBuffer) (h : ringWf s) (hpos : 0 < s.avail) :
    ringWf (popStep s) := by
  obtain ⟨hcap, hav, hrp, hwp⟩ := h
  refine ⟨hcap, ?_, Nat.mod_lt _ hcap, ?_⟩
  · simp only [popStep]; omega
  · simp only [popStep, hwp]
    rw [Nat.mod_add_mod]
    congr 1
    omega

/-- The head/tail decomposition of the abstract queue along one consumer
step. -/
theorem queueOf_cons (s : RingBuffer) (h : ringWf s) (hpos : 0 < s.avail) :
    queueOf s = s.buf s.readPos :: queueOf (popStep s) := by
  obtain ⟨hcap, hav, hrp, hwp⟩ := h
  obtain ⟨m, hm⟩ : ∃ m, s.avail = m + 1 := ⟨s.avail - 1, by omega⟩
  simp only [queueOf, popStep, hm, List.range_succ_eq_map, List.map_cons,
    Nat.add_sub_cancel, List.map_map]
  congr 1
  · rw [Nat.add_zero, Nat.mod_eq_of_lt hrp]
  · apply List.map_congr_left
    intro i _
    simp only [Function.comp_apply]
    rw [Nat.mod_add_mod]
    have h3 : s.readPos + 1 + i = s.readPos + i.succ := by omega
    rw [h3]

/-- The consumer loop, run `k ≤ available` times on a well-formed ring,
returns the first `k` queued samples, leaves the rest queued, and
preserves well-formedness. -/
theorem popLoop_spec (k : ℕ) (s : RingBuffer) (h : ringWf s)
    (hk : k ≤ s.avail) :
    (popLoop s k).1 = (queueOf s).take k ∧
      queueOf (popLoop s k).2 = (queueOf s).drop k ∧
      ringWf (popLoop s k).2 := by
  induction k generalizing s with
  | zero => exact ⟨rfl, rfl, h⟩
  | succ k ih =>
    have hpos : 0 < s.avail := by omega
    have hw' : ringWf (popStep s) := ringWf_popStep s h hpos
    have hk' : k ≤ (popStep s).avail := by simp only [popStep]; omega
    have hdec := queueOf_cons s h hpos
    obtain ⟨ih1, ih2, ih3⟩ := ih (popStep s) hw' hk'
    refine ⟨?_, ?_, ih3⟩
    · show s.buf s.readPos :: (popLoop (popStep s) k).1 = _
      rw [ih1, hdec, List.take_succ_cons]
    · show queueOf (popLoop (popStep s) k).2 = _
      rw [ih2, hdec, List.drop_succ_cons]

/-! ## Theorems -/

/-- C1.  The driver downmix is not the arithmetic mean of the channel
lanes: with `M = 2` channels and lanes `(2, 0)` at index 0, the code
folds `(int16_t)((p + lane_c)/M)` over the channels and produces `0`,
while the arithmetic mean `(2 + 0) / 2` is `1`.  This evaluates the
embedded downmix at the failing input. -/
theorem downmix_not_arithmetic_mean :
    downmix 2 (fun c _ => if c = 0 then (2 : ℤ) else 0) 0 = 0 ∧
      (∑ c ∈ Finset.range 2, (fun c _ => if c = 0 then (2 : ℤ) else 0) c 0) / 2
        = 1 ∧
      (0 : ℤ) ≠ 1 := by
  refine ⟨by decide, ?_, by decide⟩
  decide

/-- C5.  The capture ring buffer created by `i2s_init` has capacity
`4 × B`; after any sequence of push (capture-thread writes) and pop
(`i2s_read_samples`) operations the fill level satisfies
`available ≤ capacity` (it is a `ℕ`, so `0 ≤ available` is inherent);
and pushing `10 × capacity` samples into the fresh buffer with no pops
accepts exactly `capacity` of them — `available = capacity` and the
dropped count is `9 × capacity`. -/
theorem captureRing_invariant_overrun (B : ℕ) (ops : List RingOp)
    (f : ℕ → ℤ) :
    (ops.foldl applyOp (i2sInitRing B)).avail
        ≤ (ops.foldl applyOp (i2sInitRing B)).cap ∧
      (ops.foldl applyOp (i2sInitRing B)).cap = 4 * B ∧
      (pushLoop (i2sInitRing B) ((List.range (10 * (4 * B))).map f)).avail
        = 4 * B ∧
      10 * (4 * B) -
          (pushLoop (i2sInitRing B) ((List.range (10 * (4 * B))).map f)).avail
        = 9 * (4 * B) := by
  have key : ∀ (ops : List RingOp) (s : RingBuffer), s.avail ≤ s.cap →
      (ops.foldl applyOp s).avail ≤ (ops.foldl applyOp s).cap ∧
        (ops.foldl applyOp s).cap = s.cap := by
    intro ops
    induction ops with
    | nil => exact fun s h => ⟨h, rfl⟩
    | cons op ops ih =>
      intro s h
      cases op with
      | push xs =>
        have h1 := pushLoop_avail xs s h
        have h2 := pushLoop_cap xs s
        have := ih (pushLoop s xs) (by rw [h1, h2]; omega)
        simpa [applyOp, this.2, h2] using this
      | pop n =>
        have h1 := popLoop_avail (min n s.avail) s
        have := ih (i2sReadSamples s n).2.1
          (by simp only [i2sReadSamples]; rw [h1.1, h1.2]; omega)
        have hc : (i2sReadSamples s n).2.1.cap = s.cap := h1.2
        simpa [applyOp, this.2, hc] using this
  have hinv := key ops (i2sInitRing B) (by simp [i2sInitRing])
  have hpush := pushLoop_avail ((List.range (10 * (4 * B))).map f)
    (i2sInitRing B) (by simp [i2sInitRing])
  have hcap0 : (i2sInitRing B).cap = 4 * B := rfl
  have hav0 : (i2sInitRing B).avail = 0 := rfl
  simp only [List.length_map, List.length_range, hcap0, hav0] at hpush
  refine ⟨hinv.1, hinv.2.trans hcap0, ?_, ?_⟩ <;> rw [hpush] <;> omega

/-- C8.  On a well-formed ring state, `i2s_read_samples` returns exactly
`min(n, available)` samples, those samples are the oldest buffered
samples in push order (the head of the abstract FIFO queue, to which
the producer loop appends), `available` decreases by exactly the
returned count, and well-formedness is preserved. -/
theorem i2sReadSamples_fifo (s : RingBuffer) (n : ℕ) (h : ringWf s) :
    (i2sReadSamples s n).1 = (queueOf s).take (min n s.avail) ∧
      (i2sReadSamples s n).1.length = min n s.avail ∧
      (i2sReadSamples s n).2.2 = ((min n s.avail : ℕ) : ℤ) ∧
      (i2sReadSamples s n).2.1.avail = s.avail - min n s.avail ∧
      queueOf (i2sReadSamples s n).2.1 = (queueOf s).drop (min n s.avail) ∧
      ringWf (i2sReadSamples s n).2.1 ∧
      ∀ xs : List ℤ,
        queueOf (pushLoop s xs) = queueOf s ++ xs.take (s.cap - s.avail) := by
  have hk : min n s.avail ≤ s.avail := Nat.min_le_right n s.avail
  obtain ⟨h1, h2, h3⟩ := popLoop_spec (min n s.avail) s h hk
  have hav := (popLoop_avail (min n s.avail) s).1
  refine ⟨h1, ?_, rfl, hav, h2, h3, fun xs => (queueOf_pushLoop xs s h).2⟩
  show (popLoop s (min n s.avail)).1.length = min n s.avail
  rw [h1, List.length_take, queueOf_length]
  omega

/-- Witness for C8: a full ring of capacity 2 holding `[7, 9]`
(read position 0), popped with `n = 1`: it returns `[7]`, one sample
remains queued, and the fill level drops to 1. -/
theorem i2sReadSamples_fifo_witness :
    ringWf ⟨2, fun k => if k = 0 then 7 else 9, 0, 0, 2⟩ ∧
      (i2sReadSamples ⟨2, fun k => if k = 0 then 7 else 9, 0, 0, 2⟩ 1).1
        = (queueOf ⟨2, fun k => if k = 0 then 7 else 9, 0, 0, 2⟩).take
            (min 1 2) ∧
      (queueOf ⟨2, fun k => if k = 0 then 7 else 9, 0, 0, 2⟩).take (min 1 2)
        = [7] ∧
      (i2sReadSamples ⟨2, fun k => if k = 0 then 7 else 9, 0, 0, 2⟩ 1).2.1.avail
        = 1 := by
  have hwf : ringWf ⟨2, fun k => if k = 0 then 7 else 9, 0, 0, 2⟩ :=
    ⟨by norm_num, by norm_num, by norm_num, by norm_num⟩
  have h := i2sReadSamples_fifo ⟨2, fun k => if k = 0 then 7 else 9, 0, 0, 2⟩
    1 hwf
  exact ⟨hwf, h.1, by decide, h.2.2.2.1⟩


/-- C9.  When fewer samples than the configured correlation window are
supplied, `localization_process` returns success (0) and writes the
zero location with zero confidence, performing no correlation or
trilateration. -/
theorem localizationProcess_short_input (M : ℕ) (spacing : ℝ) (rate : ℕ)
    (c : ℝ) (window : ℕ) (minConf : ℝ) (pos : ℕ → MicPos)
    (data : ℕ → ℕ → ℤ) (samples : ℕ) (h : samples < window) :
    localizationProcess M spacing rate c window minConf pos data samples
      = (0, (0, 0, 0, 0)) := by
  unfold localizationProcess
  rw [if_pos h]

/-- Witness for C9 at a concrete input: window 4, 2 samples. -/
theorem localizationProcess_short_input_witness :
    2 < 4 ∧
      localizationProcess 2 0 16000 343 4 (1/2) (fun _ => (0, 0, 0))
        (fun _ _ => 0) 2 = (0, (0, 0, 0, 0)) :=
  ⟨by norm_num,
    localizationProcess_short_input 2 0 16000 343 4 (1/2) (fun _ => (0, 0, 0))
      (fun _ _ => 0) 2 (by norm_num)⟩

/-- C10.  Calling `noise_reduction_update_noise_profile` with fewer than
`frame_size` samples still returns success, zeroes every bin of the
stored noise spectrum (the entry memset runs, the accumulation loop
never does), and leaves `noise_profile_ready` unchanged — a previously
trained profile is replaced by an all-zero spectrum that still reads as
trained. -/
theorem updateNoiseProfile_short_input (fft : (ℕ → ℝ) → ℕ → ℂ) (F : ℕ)
    (noise : ℕ → ℤ) (samples : ℕ) (st : NRState) (h : samples < F) :
    (noiseReductionUpdateNoiseProfile fft F noise samples st).2 = 0 ∧
      nrReady (noiseReductionUpdateNoiseProfile fft F noise samples st).1
        = nrReady st ∧
      ∀ k ≤ F / 2,
        nrNoiseSpectrum
          (noiseReductionUpdateNoiseProfile fft F noise samples st).1 k
          = 0 := by
  have hloop : updateProfileLoop fft F noise samples (samples + 1) 0
      (fun k => if k ≤ F / 2 then 0 else st.2.2.1 k) 0
      = ((fun k => if k ≤ F / 2 then 0 else st.2.2.1 k), 0) := by
    unfold updateProfileLoop
    rw [if_neg (by omega)]
  simp only [noiseReductionUpdateNoiseProfile, hloop]
  refine ⟨by norm_num, by simp [nrReady], fun k hk => ?_⟩
  simp [nrNoiseSpectrum, hk]

/-- Witness for C10: frame size 4, 2 samples, a state with a trained
profile (`ready = true`, all bins 5): the result still reads as trained
and every bin is zero. -/
theorem updateNoiseProfile_short_input_witness :
    2 < 4 ∧
      ((noiseReductionUpdateNoiseProfile (fun _ _ => 0) 4 (fun _ => 0) 2
          (fun _ => 0, fun _ => 0, fun _ => 5, 0, true)).2 = 0 ∧
        nrReady (noiseReductionUpdateNoiseProfile (fun _ _ => 0) 4
          (fun _ => 0) 2 (fun _ => 0, fun _ => 0, fun _ => 5, 0, true)).1
          = true ∧
        ∀ k ≤ 2,
          nrNoiseSpectrum (noiseReductionUpdateNoiseProfile (fun _ _ => 0) 4
            (fun _ => 0) 2
            (fun _ => 0, fun _ => 0, fun _ => 5, 0, true)).1 k = 0) :=
  ⟨by norm_num,
    updateNoiseProfile_short_input (fun _ _ => 0) 4 (fun _ => 0) 2
      (fun _ => 0, fun _ => 0, fun _ => 5, 0, true) (by norm_num)⟩

/-- C7.  With the noise profile ready (and a sane configuration:
`0 ≤ β ≤ 1`, nonnegative stored noise, nonnegative SNR gate), each bin
is replaced by the polar form `(mag · gain, phase)` with the phase
unchanged; the applied gain is clamped into `[β, 1]`; the gain is
exactly `β` whenever `snr = mag/(noise + ε) ≤ noise_threshold`; and the
output magnitude lies between `β · mag` and `mag`. -/
theorem ssBin_gain_clamped (thr alpha beta noise : ℝ) (z : ℂ)
    (hb0 : 0 ≤ beta) (hb1 : beta ≤ 1) (hn : 0 ≤ noise) (ht : 0 ≤ thr) :
    ssBin thr alpha beta true noise z =
        ⟨Real.sqrt (z.re * z.re + z.im * z.im) *
            ssGain thr alpha beta noise
              (Real.sqrt (z.re * z.re + z.im * z.im)) *
            Real.cos (atan2R z.im z.re),
          Real.sqrt (z.re * z.re + z.im * z.im) *
            ssGain thr alpha beta noise
              (Real.sqrt (z.re * z.re + z.im * z.im)) *
            Real.sin (atan2R z.im z.re)⟩ ∧
      beta ≤ ssGain thr alpha beta noise
        (Real.sqrt (z.re * z.re + z.im * z.im)) ∧
      ssGain thr alpha beta noise (Real.sqrt (z.re * z.re + z.im * z.im))
        ≤ 1 ∧
      (Real.sqrt (z.re * z.re + z.im * z.im) / (noise + 1e-10) ≤ thr →
        ssGain thr alpha beta noise (Real.sqrt (z.re * z.re + z.im * z.im))
          = beta) ∧
      beta * Real.sqrt (z.re * z.re + z.im * z.im)
        ≤ Real.sqrt (z.re * z.re + z.im * z.im) *
            ssGain thr alpha beta noise
              (Real.sqrt (z.re * z.re + z.im * z.im)) ∧
      Real.sqrt (z.re * z.re + z.im * z.im) *
          ssGain thr alpha beta noise
            (Real.sqrt (z.re * z.re + z.im * z.im))
        ≤ Real.sqrt (z.re * z.re + z.im * z.im) := by
  set mag := Real.sqrt (z.re * z.re + z.im * z.im) with hmag
  have hmag0 : 0 ≤ mag := Real.sqrt_nonneg _
  have hgain_lo : beta ≤ ssGain thr alpha beta noise mag := by
    simp only [ssGain]
    exact le_min (le_max_right _ _) hb1
  have hgain_hi : ssGain thr alpha beta noise mag ≤ 1 := by
    simp only [ssGain]
    exact min_le_right _ _
  refine ⟨?_, hgain_lo, hgain_hi, ?_, ?_, ?_⟩
  · simp [ssBin]
  · intro hsnr
    simp only [ssGain, gt_iff_lt]
    rw [if_neg (not_lt.mpr hsnr), max_self, min_eq_left hb1]
  · calc beta * mag = mag * beta := mul_comm _ _
      _ ≤ mag * ssGain thr alpha beta noise mag :=
        mul_le_mul_of_nonneg_left hgain_lo hmag0
  · calc mag * ssGain thr alpha beta noise mag ≤ mag * 1 :=
        mul_le_mul_of_nonneg_left hgain_hi hmag0
      _ = mag := mul_one mag

/-- Witness for C7: threshold 1, `α = 2`, `β = 1/10`, stored noise 1,
bin value `1 + 0i` (so `mag = 1`, `snr < 1`): the hypotheses hold and
the gain facts follow. -/
theorem ssBin_gain_clamped_witness :
    (0 : ℝ) ≤ 1/10 ∧ (1/10 : ℝ) ≤ 1 ∧ (0 : ℝ) ≤ 1 ∧
      (ssGain 1 2 (1/10) 1
          (Real.sqrt ((1 : ℂ).re * (1 : ℂ).re + (1 : ℂ).im * (1 : ℂ).im))
          ≤ 1 ∧
        (Real.sqrt ((1 : ℂ).re * (1 : ℂ).re + (1 : ℂ).im * (1 : ℂ).im) /
              (1 + 1e-10) ≤ 1 →
          ssGain 1 2 (1/10) 1
              (Real.sqrt ((1 : ℂ).re * (1 : ℂ).re + (1 : ℂ).im * (1 : ℂ).im))
            = 1/10)) := by
  have h := ssBin_gain_clamped 1 2 (1/10) 1 1
    (by norm_num) (by norm_num) (by norm_num) (by norm_num)
  exact ⟨by norm_num, by norm_num, by norm_num, h.2.2.1, h.2.2.2.1⟩

/-- C3 (amended).  For every mono sample, location and volume, the
emitted stereo samples are produced in two truncation stages:
`L[i] = trunc_i16(trunc_i16(m[i] · gain_L′) · volume)` with
`gain_L′ = ((1 − pan)/2 + 0.5) · attn · confidence` (volume excluded
from the panning gain), and symmetrically for R — the volume factor is
applied to the already-truncated int16 sample, and no saturation
clipping is performed at either stage. -/
theorem writeLocalized_two_stage (volume : ℝ) (loc : SoundLocation) (m : ℤ) :
    writeLocalized volume loc m =
      (truncR ((truncR ((m : ℝ) *
          ((1 - clampR (-1) 1 (atan2R loc.2.1 loc.1 / Real.pi)) / 2 + 0.5) *
          clampR 0.1 1 (1 / (1 + Real.sqrt (loc.1 * loc.1 + loc.2.1 * loc.2.1)
            * 0.1)) * locConfidence loc) : ℝ) * volume),
        truncR ((truncR ((m : ℝ) *
          ((1 + clampR (-1) 1 (atan2R loc.2.1 loc.1 / Real.pi)) / 2 + 0.5) *
          clampR 0.1 1 (1 / (1 + Real.sqrt (loc.1 * loc.1 + loc.2.1 * loc.2.1)
            * 0.1)) * locConfidence loc) : ℝ) * volume)) := by
  simp only [writeLocalized, applyStereoPanning, writeStereoSample]
  rw [Prod.mk.injEq]
  refine ⟨?_, ?_⟩ <;>
  · apply congrArg (fun t : ℤ => truncR ((t : ℝ) * volume))
    apply congrArg truncR
    ring

/-- C3 (counterexample).  At location `(0,0,0)` with confidence `1/2`,
volume `2/5` and mono sample `5`, the code emits a left sample of `0`
(panning stage truncates `5 · 1/2` to `2`, volume stage truncates
`2 · 2/5` to `0`), while the claimed single full-precision computation
`clip_i16(m · gain_L)` with `gain_L = ((1−pan)/2+0.5)·attn·conf·volume`
gives `clip_i16(5 · 1/5) = 1`. -/
theorem writeLocalized_not_single_clip :
    (writeLocalized (2/5) (0, 0, 0, 1/2) 5).1 = 0 ∧
      specClipI16 ((5 : ℝ) * specGainL (0, 0, 0, 1/2) (2/5)) = 1 ∧
      (0 : ℤ) ≠ 1 := by
  have harg : atan2R (0 : ℝ) (0 : ℝ) = 0 := by
    unfold atan2R
    have h0 : (⟨0, 0⟩ : ℂ) = 0 := by
      apply Complex.ext <;> simp
    rw [h0, Complex.arg_zero]
  have hgl : ((1 - clampR (-1) 1 (atan2R (0:ℝ) (0:ℝ) / Real.pi)) * 0.5 + 0.5)
      * (clampR 0.1 1 (1 / (1 + Real.sqrt ((0:ℝ) * 0 + 0 * 0) * 0.1))
        * (1/2 : ℝ)) = 1/2 := by
    rw [harg]
    simp only [clampR]
    norm_num
  refine ⟨?_, ?_, by norm_num⟩
  · simp only [writeLocalized, applyStereoPanning, writeStereoSample,
      locConfidence, hgl]
    have h1 : truncR (((5 : ℤ) : ℝ) * (1/2)) = 2 := by
      rw [truncR, if_pos (by norm_num)]
      norm_num
    rw [h1, truncR, if_pos (by norm_num)]
    norm_num
  · have hgr : specGainL (0, 0, 0, 1/2) (2/5) = 1/5 := by
      simp only [specGainL, locConfidence, harg, clampR]
      norm_num
    rw [hgr, specClipI16, truncR, if_pos (by norm_num)]
    norm_num

/-! ## Localization evaluation helpers -/

/-- With `mic_spacing = 0` the computed `max_delay` is 0. -/
theorem maxDelayOf_zero_spacing (c : ℝ) (rate : ℕ) :
    maxDelayOf 0 c rate = 0 := by
  rw [maxDelayOf]
  have h0 : (0 : ℝ) * 2 / c * (rate : ℝ) = 0 := by ring
  rw [h0, truncR, if_pos le_rfl, Int.floor_zero]
  decide

/-- With 2 identical constant channels (window 1, spacing 0) the average
confidence computed by the gate is exactly 1. -/
theorem avgConfidence_pair_identical :
    avgConfidence 2 (fun _ _ => (16384 : ℤ)) 1 (maxDelayOf 0 343 16000)
      = 1 := by
  have hd : maxDelayOf 0 343 16000 = 0 := maxDelayOf_zero_spacing 343 16000
  have hs : sampleToFloat 16384 = 1/2 := by
    rw [sampleToFloat]
    norm_num
  have hcc : crossCorrelate (fun _ => (16384 : ℤ)) (fun _ => (16384 : ℤ)) 1 0
      = 1 := by
    have hn : (((1 : ℕ) : ℤ) - |(0 : ℤ)|).toNat = 1 := by norm_num
    simp only [crossCorrelate, hn, Finset.sum_range_one, hs, le_refl, if_pos]
    have hsq : Real.sqrt ((1/2 : ℝ) * (1/2) * ((1/2) * (1/2))) = 1/4 := by
      rw [show ((1/2 : ℝ) * (1/2) * ((1/2) * (1/2))) = (1/4)^2 by ring,
        Real.sqrt_sq (by norm_num)]
    rw [hsq, if_pos (by norm_num)]
    norm_num
  have hdr : delayRange 0 = [0] := by decide
  have hmax : maxCorrelation (fun _ => (16384 : ℤ)) (fun _ => (16384 : ℤ)) 1 0
      = 1 := by
    simp only [maxCorrelation, hdr, List.foldl_cons, List.foldl_nil, hcc]
    norm_num
  simp only [avgConfidence, confidenceValues, hd, Finset.sum_range_succ,
    Finset.sum_range_zero]
  norm_num [hmax]

/-- C2 (counterexample).  With 2 identical constant-signal microphones
(`mic_spacing = 0`, window 1, threshold 1/2) the confidence gate passes
with `avg_confidence = 1`, the trilateration system is degenerate
(only one equation from `M = 2 < 4`), and the emitted confidence is
`0`, not the average confidence `1`: `trilaterate_3d` zeroes the
confidence on its degenerate paths. -/
theorem degenerate_trilateration_conf_cx :
    locConfidence (localizationProcess 2 0 16000 343 1 (1/2)
        (fun _ => (0, 0, 0)) (fun _ _ => (16384 : ℤ)) 1).2 = 0 ∧
      avgConfidence 2 (fun _ _ => (16384 : ℤ)) 1 (maxDelayOf 0 343 16000)
        = 1 ∧
      (0 : ℝ) ≠ 1 := by
  refine ⟨?_, avgConfidence_pair_identical, by norm_num⟩
  simp only [localizationProcess, avgConfidence_pair_identical]
  rw [if_neg (by norm_num), if_neg (by norm_num)]
  simp only [trilaterate3d]
  rw [if_pos (by norm_num)]
  rfl

/-- C2 (amended).  For every call to `localization_process` that passes
the confidence gate, if the trilateration system is degenerate — fewer
than three equations because `M < 4`, or the Gaussian elimination
aborts on a small pivot — then the emitted `SoundLocation` is the
origin with confidence 0 (the code zeroes the confidence on the
degenerate paths rather than reporting `avg_confidence`). -/
theorem localizationProcess_degenerate_zero (M : ℕ) (spacing : ℝ)
    (rate : ℕ) (c : ℝ) (window : ℕ) (minConf : ℝ) (pos : ℕ → MicPos)
    (data : ℕ → ℕ → ℤ) (samples : ℕ)
    (h1 : window ≤ samples)
    (h2 : ¬ avgConfidence M data samples (maxDelayOf spacing c rate)
      < minConf)
    (h3 : M < 4 ∨
      gaussElim (triMatrix pos c
        (fun i => delayEstimates data samples (maxDelayOf spacing c rate) i
          / (rate : ℝ))) = none) :
    localizationProcess M spacing rate c window minConf pos data samples
      = (0, (0, 0, 0, 0)) := by
  simp only [localizationProcess]
  rw [if_neg (not_lt.mpr h1), if_neg h2]
  simp only [trilaterate3d]
  rcases h3 with h3 | h3
  · rw [if_pos (by omega)]
  · by_cases h4 : M - 1 < 3
    · rw [if_pos h4]
    · rw [if_neg h4, h3]
      rfl

/-- Witness for C2 (amended), at the concrete degenerate input of the
counterexample: 2 identical constant channels, gate passed with
average confidence 1, `M = 2 < 4`. -/
theorem localizationProcess_degenerate_zero_witness :
    (1 : ℕ) ≤ 1 ∧
      ¬ avgConfidence 2 (fun _ _ => (16384 : ℤ)) 1 (maxDelayOf 0 343 16000)
          < 1/2 ∧
      (2 : ℕ) < 4 ∧
      localizationProcess 2 0 16000 343 1 (1/2) (fun _ => (0, 0, 0))
        (fun _ _ => (16384 : ℤ)) 1 = (0, (0, 0, 0, 0)) :=
  ⟨le_rfl, by rw [avgConfidence_pair_identical]; norm_num, by norm_num,
    localizationProcess_degenerate_zero 2 0 16000 343 1 (1/2)
      (fun _ => (0, 0, 0)) (fun _ _ => (16384 : ℤ)) 1 le_rfl
      (by rw [avgConfidence_pair_identical]; norm_num)
      (Or.inl (by norm_num))⟩

/-- C6 (counterexample).  With 3 microphones where channels 1 and 2 are
exactly anticorrelated with the reference, every scanned delay gives
correlation `-1`, so `avg_confidence = (1 - 1 - 1)/3 = -1/3`; the gate
fails and the emitted `SoundLocation` carries confidence `-1/3`, which
lies outside `[0, 1]`. -/
theorem confidence_not_in_unit_interval_cx :
    locConfidence (localizationProcess 3 0 16000 343 1 (1/2)
        (fun _ => (0, 0, 0))
        (fun ch _ => if ch = 0 then (16384 : ℤ) else -16384) 1).2
      = -(1/3) ∧
      (-(1/3) : ℝ) < 0 := by
  have hd : maxDelayOf 0 343 16000 = 0 := maxDelayOf_zero_spacing 343 16000
  have hs : sampleToFloat 16384 = 1/2 := by
    rw [sampleToFloat]
    norm_num
  have hs' : sampleToFloat (-16384) = -(1/2) := by
    rw [sampleToFloat]
    norm_num
  have hcc : crossCorrelate (fun _ => (16384 : ℤ)) (fun _ => (-16384 : ℤ)) 1 0
      = -1 := by
    have hn : (((1 : ℕ) : ℤ) - |(0 : ℤ)|).toNat = 1 := by norm_num
    simp only [crossCorrelate, hn, Finset.sum_range_one, hs, hs', le_refl,
      if_pos]
    have hsq : Real.sqrt ((1/2 : ℝ) * (1/2) * (-(1/2) * -(1/2))) = 1/4 := by
      rw [show ((1/2 : ℝ) * (1/2) * (-(1/2) * -(1/2))) = (1/4)^2 by ring,
        Real.sqrt_sq (by norm_num)]
    rw [hsq, if_pos (by norm_num)]
    norm_num
  have hdr : delayRange 0 = [0] := by decide
  have hmax : maxCorrelation (fun _ => (16384 : ℤ)) (fun _ => (-16384 : ℤ)) 1 0
      = -1 := by
    simp only [maxCorrelation, hdr, List.foldl_cons, List.foldl_nil, hcc]
    norm_num
  have h0 : (fun _ : ℕ => if (0 : ℕ) = 0 then (16384 : ℤ) else -16384)
      = fun _ => (16384 : ℤ) := by
    funext j
    norm_num
  have h1 : (fun _ : ℕ => if (1 : ℕ) = 0 then (16384 : ℤ) else -16384)
      = fun _ => (-16384 : ℤ) := by
    funext j
    norm_num
  have h2 : (fun _ : ℕ => if (2 : ℕ) = 0 then (16384 : ℤ) else -16384)
      = fun _ => (-16384 : ℤ) := by
    funext j
    norm_num
  have havg : avgConfidence 3
      (fun ch _ => if ch = 0 then (16384 : ℤ) else -16384) 1
      (maxDelayOf 0 343 16000) = -(1/3) := by
    simp only [avgConfidence, confidenceValues, hd, Finset.sum_range_succ,
      Finset.sum_range_zero, h0, h1, h2]
    norm_num [hmax]
  refine ⟨?_, by norm_num⟩
  simp only [localizationProcess, havg]
  rw [if_neg (by norm_num), if_pos (by norm_num)]
  rfl

/-- C6 (amended).  For every input with at least one microphone, the
confidence emitted by `localization_process` lies in `[-1, 1]`: every
emitted confidence is either 0 or the average of the per-microphone
normalized correlations (each in `[-1, 1]` by Cauchy–Schwarz), which
can be negative (see the counterexample) but never exceeds 1 in
magnitude. -/
theorem localization_confidence_bounded (M : ℕ) (spacing : ℝ) (rate : ℕ)
    (c : ℝ) (window : ℕ) (minConf : ℝ) (pos : ℕ → MicPos)
    (data : ℕ → ℕ → ℤ) (samples : ℕ) (hM : 1 ≤ M) :
    -1 ≤ locConfidence (localizationProcess M spacing rate c window minConf
        pos data samples).2 ∧
      locConfidence (localizationProcess M spacing rate c window minConf
        pos data samples).2 ≤ 1 := by
  have habs : ∀ (sig1 sig2 : ℕ → ℤ) (len : ℕ) (d : ℤ),
      |crossCorrelate sig1 sig2 len d| ≤ 1 := by
    intro sig1 sig2 len d
    have key : ∀ (n : ℕ) (f g : ℕ → ℝ),
        |if Real.sqrt ((∑ i ∈ Finset.range n, f i * f i) *
            (∑ i ∈ Finset.range n, g i * g i)) > 0 then
          (∑ i ∈ Finset.range n, f i * g i) /
            Real.sqrt ((∑ i ∈ Finset.range n, f i * f i) *
              (∑ i ∈ Finset.range n, g i * g i))
        else 0| ≤ 1 := by
      intro n f g
      by_cases hd : Real.sqrt ((∑ i ∈ Finset.range n, f i * f i) *
          (∑ i ∈ Finset.range n, g i * g i)) > 0
      · rw [if_pos hd, abs_div, abs_of_pos hd, div_le_one hd]
        have hcs := Finset.sum_mul_sq_le_sq_mul_sq (Finset.range n) f g
        calc |∑ i ∈ Finset.range n, f i * g i|
            = Real.sqrt ((∑ i ∈ Finset.range n, f i * g i)^2) :=
              (Real.sqrt_sq_eq_abs _).symm
          _ ≤ Real.sqrt ((∑ i ∈ Finset.range n, f i * f i) *
                (∑ i ∈ Finset.range n, g i * g i)) := by
              apply Real.sqrt_le_sqrt
              calc (∑ i ∈ Finset.range n, f i * g i)^2
                  ≤ (∑ i ∈ Finset.range n, f i ^ 2) *
                      (∑ i ∈ Finset.range n, g i ^ 2) := hcs
                _ = (∑ i ∈ Finset.range n, f i * f i) *
                      (∑ i ∈ Finset.range n, g i * g i) := by
                    simp only [pow_two]
      · rw [if_neg hd]
        norm_num
    exact key (((len : ℤ) - |d|).toNat)
      (fun i => sampleToFloat (sig1 (if 0 ≤ d then i else i + d.natAbs)))
      (fun i => sampleToFloat (sig2 (if 0 ≤ d then i + d.natAbs else i)))
  have hmaxmem : ∀ (ref sig : ℕ → ℤ) (len : ℕ) (D : ℤ),
      -1 ≤ maxCorrelation ref sig len D ∧
        maxCorrelation ref sig len D ≤ 1 := by
    intro ref sig len D
    rw [maxCorrelation]
    have key : ∀ (ds : List ℤ) (m : ℝ), -1 ≤ m → m ≤ 1 →
        -1 ≤ ds.foldl (fun m d =>
            let c := crossCorrelate ref sig len d
            if c > m then c else m) m ∧
          ds.foldl (fun m d =>
            let c := crossCorrelate ref sig len d
            if c > m then c else m) m ≤ 1 := by
      intro ds
      induction ds with
      | nil => exact fun m hlo hhi => ⟨hlo, hhi⟩
      | cons d ds ih =>
        intro m hlo hhi
        simp only [List.foldl_cons]
        have hc := abs_le.mp (habs ref sig len d)
        by_cases h : crossCorrelate ref sig len d > m
        · rw [if_pos h]
          exact ih _ hc.1 hc.2
        · rw [if_neg h]
          exact ih _ hlo hhi
    exact key (delayRange D) (-1) le_rfl (by norm_num)
  have hconfmem : ∀ (D : ℤ) (i : ℕ),
      -1 ≤ confidenceValues data samples D i ∧
        confidenceValues data samples D i ≤ 1 := by
    intro D i
    rw [confidenceValues]
    by_cases h : i = 0
    · rw [if_pos h]
      norm_num
    · rw [if_neg h]
      exact hmaxmem (data 0) (data i) samples D
  have havg : ∀ D : ℤ, -1 ≤ avgConfidence M data samples D ∧
      avgConfidence M data samples D ≤ 1 := by
    intro D
    have hMpos : (0 : ℝ) < (M : ℝ) := by
      exact_mod_cast Nat.lt_of_lt_of_le Nat.zero_lt_one hM
    have hsum : |∑ i ∈ Finset.range M, confidenceValues data samples D i|
        ≤ (M : ℝ) := by
      calc |∑ i ∈ Finset.range M, confidenceValues data samples D i|
          ≤ ∑ i ∈ Finset.range M, |confidenceValues data samples D i| :=
            Finset.abs_sum_le_sum_abs _ _
        _ ≤ (Finset.range M).card • (1 : ℝ) :=
            Finset.sum_le_card_nsmul _ _ 1 fun i _ =>
              abs_le.mpr ⟨(hconfmem D i).1, (hconfmem D i).2⟩
        _ = (M : ℝ) := by
            simp
    have habs2 : |avgConfidence M data samples D| ≤ 1 := by
      rw [avgConfidence, abs_div, abs_of_pos hMpos, div_le_one hMpos]
      exact hsum
    exact abs_le.mp habs2
  simp only [locConfidence, localizationProcess]
  by_cases h1 : samples < window
  · rw [if_pos h1]
    norm_num
  · rw [if_neg h1]
    by_cases h2 : avgConfidence M data samples (maxDelayOf spacing c rate)
        < minConf
    · rw [if_pos h2]
      exact havg _
    · rw [if_neg h2]
      simp only [trilaterate3d]
      by_cases h3 : M - 1 < 3
      · rw [if_pos h3]
        norm_num
      · rw [if_neg h3]
        cases hg : gaussElim (triMatrix pos c
            fun i => delayEstimates data samples (maxDelayOf spacing c rate) i
              / (rate : ℝ)) with
        | none =>
          exact ⟨by norm_num, by norm_num⟩
        | some U =>
          exact havg _

/-- Witness for C6 (amended): one microphone, two samples, window 4:
the early return emits confidence 0 which lies in `[-1, 1]`. -/
theorem localization_confidence_bounded_witness :
    (1 : ℕ) ≤ 1 ∧
      -1 ≤ locConfidence (localizationProcess 1 0 16000 343 4 (1/2)
          (fun _ => (0, 0, 0)) (fun _ _ => 0) 2).2 ∧
      locConfidence (localizationProcess 1 0 16000 343 4 (1/2)
          (fun _ => (0, 0, 0)) (fun _ _ => 0) 2).2 ≤ 1 :=
  ⟨le_rfl,
    (localization_confidence_bounded 1 0 16000 343 4 (1/2)
      (fun _ => (0, 0, 0)) (fun _ _ => 0) 2 le_rfl).1,
    (localization_confidence_bounded 1 0 16000 343 4 (1/2)
      (fun _ => (0, 0, 0)) (fun _ _ => 0) 2 le_rfl).2⟩

/-! ## C4: unrecognized algorithm is not a pass-through -/

/-- The fftw round-trip contract holds for the size-2 instance:
`c2r (r2c v) = 2 · v` on the frame. -/
theorem idft2_dft2 (v : ℕ → ℝ) : ∀ i < 2, idft2 (dft2 v) i = (2 : ℝ) * v i := by
  intro i hi
  interval_cases i <;> simp [dft2, idft2] <;> ring

/-- The single-frame evaluation of `noise_reduction_process` with an
unrecognized algorithm: starting from an empty accumulator
(`buffer_pos = 0`) and feeding exactly one frame of samples, the
emitted hop is the doubly-windowed overlap-added reconstruction of the
input — not the input itself. -/
theorem nrProcess_single_frame (fft : (ℕ → ℝ) → ℕ → ℂ)
    (ifft : (ℕ → ℂ) → ℕ → ℝ) (thr alpha beta : ℝ) (F overlap : ℕ)
    (alg : String) (input : ℕ → ℤ) (st : NRState)
    (halg : alg ≠ "spectral_subtraction")
    (hov : overlap < F)
    (hpos : st.2.2.2.1 = 0)
    (hfft : ∀ v : ℕ → ℝ, ∀ i < F, ifft (fft v) i = (F : ℝ) * v i) :
    ∀ i < F - overlap,
      (noiseReductionProcess fft ifft thr alpha beta F overlap alg input F
          st).1 i
        = some (i16output (sampleToFloat (input i) * hannW F i * hannW F i +
            (if i < overlap then st.2.1 i else 0))) := by
  intro i hi
  have hF : 0 < F := Nat.lt_of_le_of_lt (Nat.zero_le _) hov
  have hiF : i < F := by omega
  have hdone : ∀ (fuel : ℕ) (st' : NRState) (out : ℕ → Option ℤ),
      nrLoop fft ifft thr alpha beta F overlap alg input F fuel F st' out
        = (out, st') := by
    intro fuel st' out
    cases fuel with
    | zero => rfl
    | succ fuel =>
      unfold nrLoop
      rw [if_neg (lt_irrefl F)]
  have hpass : ∀ st1 : NRState,
      (processFrame fft ifft thr alpha beta F overlap alg st1).1 i
        = st1.1 i * hannW F i * hannW F i +
            (if i < overlap then st1.2.1 i else 0) := by
    intro st1
    simp only [processFrame, if_neg halg]
    rw [hfft (fun j => st1.1 j * hannW F j) i hiF]
    rw [mul_div_cancel_left₀ _ (by exact_mod_cast hF.ne' : (F : ℝ) ≠ 0)]
    by_cases ho : i < overlap
    · rw [if_pos ho, if_pos ho]
    · rw [if_neg ho, if_neg ho, add_zero]
  simp only [noiseReductionProcess, nrLoop]
  rw [if_pos hF, hpos]
  simp only [Nat.sub_zero, Nat.zero_add, min_self, Nat.le_refl, if_pos,
    Nat.add_sub_cancel, Nat.sub_self]
  rw [hdone]
  have hmin : min (F - overlap) F = F - overlap := min_eq_left (Nat.sub_le _ _)
  simp only [hmin]
  rw [if_pos ⟨Nat.zero_le i, by omega⟩]
  rw [hpass]
  dsimp only
  rw [if_pos (show (0 : ℕ) ≤ i ∧ i < F from ⟨Nat.zero_le i, hiF⟩)]

/-- C4 (amended).  With an unrecognized algorithm name,
`noise_reduction_process` skips only the spectral modification; the
STFT analysis–synthesis chain (Hann window, FFT, inverse FFT,
normalization, second Hann window, overlap–add) still runs, so for a
full frame fed into an empty accumulator each emitted sample is the
doubly-windowed overlap-added value
`clip(w[i]² · x[i] + overlap[i])`, not the input sample. -/
theorem noiseReductionProcess_unrecognized_windowed
    (fft : (ℕ → ℝ) → ℕ → ℂ) (ifft : (ℕ → ℂ) → ℕ → ℝ)
    (thr alpha beta : ℝ) (F overlap : ℕ) (alg : String) (input : ℕ → ℤ)
    (st : NRState)
    (halg : alg ≠ "spectral_subtraction")
    (hov : overlap < F)
    (hpos : st.2.2.2.1 = 0)
    (hfft : ∀ v : ℕ → ℝ, ∀ i < F, ifft (fft v) i = (F : ℝ) * v i) :
    ∀ i < F - overlap,
      (noiseReductionProcess fft ifft thr alpha beta F overlap alg input F
          st).1 i
        = some (i16output (sampleToFloat (input i) * hannW F i * hannW F i +
            (if i < overlap then st.2.1 i else 0))) :=
  nrProcess_single_frame fft ifft thr alpha beta F overlap alg input st halg
    hov hpos hfft

/-- Witness for C4 (amended): the size-2 DFT pair, frame size 2,
overlap 1, algorithm `"passthrough"`, constant input. -/
theorem noiseReductionProcess_unrecognized_windowed_witness :
    ("passthrough" ≠ "spectral_subtraction") ∧ (1 < 2) ∧
      (((fun _ => 0, fun _ => 0, fun _ => 0, 0, false) : NRState).2.2.2.1
        = 0) ∧
      (∀ v : ℕ → ℝ, ∀ i < 2, idft2 (dft2 v) i = (2 : ℝ) * v i) ∧
      ∀ i < 2 - 1,
        (noiseReductionProcess dft2 idft2 (1/20) 2 (1/10) 2 1 "passthrough"
            (fun _ => (16384 : ℤ)) 2
            (fun _ => 0, fun _ => 0, fun _ => 0, 0, false)).1 i
          = some (i16output (sampleToFloat 16384 * hannW 2 i * hannW 2 i +
              (if i < 1 then (0 : ℝ) else 0))) :=
  ⟨by decide, by norm_num, rfl, idft2_dft2,
    fun i hi => noiseReductionProcess_unrecognized_windowed dft2 idft2
      (1/20) 2 (1/10) 2 1 "passthrough" (fun _ => (16384 : ℤ))
      (fun _ => 0, fun _ => 0, fun _ => 0, 0, false) (by decide)
      (by norm_num) rfl idft2_dft2 i hi⟩

/-- C4 (counterexample).  Frame size 2, overlap 1, algorithm
`"passthrough"`, all input samples 16384, empty accumulator: the single
emitted sample is 0 (the Hann endpoint zeroes it), while the input
sample is 16384 — the audio does not pass through unchanged. -/
theorem noiseReduction_unrecognized_not_identity_cx :
    (noiseReductionProcess dft2 idft2 (1/20) 2 (1/10) 2 1 "passthrough"
        (fun _ => (16384 : ℤ)) 2
        (fun _ => 0, fun _ => 0, fun _ => 0, 0, false)).1 0 = some 0 ∧
      (fun _ => (16384 : ℤ)) 0 = 16384 ∧
      some (0 : ℤ) ≠ some (16384 : ℤ) := by
  refine ⟨?_, rfl, by simp⟩
  have h : (noiseReductionProcess dft2 idft2 (1/20) 2 (1/10) 2 1
      "passthrough" (fun _ => (16384 : ℤ)) 2
      (fun _ => 0, fun _ => 0, fun _ => 0, 0, false)).1 0
      = some (i16output (sampleToFloat 16384 * hannW 2 0 * hannW 2 0 +
          (if (0 : ℕ) < 1 then (0 : ℝ) else 0))) :=
    nrProcess_single_frame dft2 idft2 (1/20) 2 (1/10) 2 1 "passthrough"
      (fun _ => (16384 : ℤ))
      (fun _ => 0, fun _ => 0, fun _ => 0, 0, false)
      (by decide) (by norm_num) rfl idft2_dft2 0 (by norm_num)
  rw [h]
  have hw : hannW 2 0 = 0 := by
    rw [hannW]
    norm_num
  rw [hw]
  have hval : sampleToFloat 16384 * 0 * 0 +
      (if (0 : ℕ) < 1 then (0 : ℝ) else 0) = 0 := by
    norm_num
  rw [hval]
  have hi0 : i16output 0 = 0 := by
    have hm : max (-1 : ℝ) (min 1 0) * 32767 = 0 := by
      rw [min_eq_right (by norm_num : (0 : ℝ) ≤ 1),
        max_eq_right (by norm_num : (-1 : ℝ) ≤ 0)]
      ring
    rw [i16output, hm, truncR, if_pos le_rfl, Int.floor_zero]
  rw [hi0]

end Micarray
